import Mathlib

/-!
Shallow embedding of the Ukrainian morphology rule engine (`morpher.py`).

Words are modelled as lists of characters (`Str`).  The external
morphological analyzer (pymorphy3) is modelled as an abstract structure
`Analyzer` producing ranked parses; each `Parse` carries a tag set, a
lexeme (the tagged sibling forms of the dictionary entry) and a partial
case-inflection function.  The Python exception-based fallbacks are
modelled by the corresponding `Option`/empty-list case analysis, and the
`ValueError` raised on an unsupported case by an `Except` error value.

The engine functions that invoke the analyzer are instrumented to also
return the number of analyzer `parse` calls they perform, so that the
memoization behaviour of the name assembler is observable; the plain
result is recovered by projection.
-/

set_option maxRecDepth 4000

abbrev Str := List Char

def lit (s : String) : Str := s.data

/-- Python whitespace characters (ASCII range, as used by `str.strip` / `str.split`). -/
def isSpaceChar (c : Char) : Bool :=
  c = ' ' || c = '\t' || c = '\n' || c = '\r' || c = '\x0b' || c = '\x0c'

/-- Model of Python `str.strip()`. -/
def pyStrip (s : Str) : Str :=
  ((s.dropWhile isSpaceChar).reverse.dropWhile isSpaceChar).reverse

/-- Helper for whitespace splitting: accumulates the current word (reversed). -/
def wordsAux : Str → Str → List Str
  | [], acc => if acc = [] then [] else [acc.reverse]
  | c :: rest, acc =>
    if isSpaceChar c then
      (if acc = [] then wordsAux rest [] else acc.reverse :: wordsAux rest [])
    else wordsAux rest (c :: acc)

/-- Model of Python `str.split()` (no argument): split on whitespace runs, dropping empties. -/
def pySplitWs (s : Str) : List Str := wordsAux s []

/-- Helper for splitting on the literal delimiter `" - "`, scanning left to right. -/
def splitOnDashAux : Str → Str → List Str
  | [], acc => [acc.reverse]
  | ' ' :: '-' :: ' ' :: rest, acc => acc.reverse :: splitOnDashAux rest []
  | c :: rest, acc => splitOnDashAux rest (c :: acc)

/-- Model of the Python split on the literal delimiter `" - "`. -/
def splitOnDash (s : Str) : List Str := splitOnDashAux s []

/-- Model of Python `sep.join(parts)`. -/
def joinSep (sep : Str) : List Str → Str
  | [] => []
  | [x] => x
  | x :: y :: xs => x ++ sep ++ joinSep sep (y :: xs)

/-- `suffix.isSuffixOf s`, i.e. Python `s.endswith(suffix)`. -/
def endsWith (suffix s : Str) : Bool := List.isSuffixOf suffix s

/-- Lower-to-upper case pairs for the characters the tool works with:
ASCII letters plus the Cyrillic range `а`-`я` and the Ukrainian letters
`і`, `ї`, `є`, `ґ`.  This is the model of the Python case mapping on
the alphabet relevant to this program. -/
def caseTable : List (Char × Char) :=
  [('a', 'A'), ('b', 'B'), ('c', 'C'), ('d', 'D'), ('e', 'E'), ('f', 'F'),
   ('g', 'G'), ('h', 'H'), ('i', 'I'), ('j', 'J'), ('k', 'K'), ('l', 'L'),
   ('m', 'M'), ('n', 'N'), ('o', 'O'), ('p', 'P'), ('q', 'Q'), ('r', 'R'),
   ('s', 'S'), ('t', 'T'), ('u', 'U'), ('v', 'V'), ('w', 'W'), ('x', 'X'),
   ('y', 'Y'), ('z', 'Z'),
   ('а', 'А'), ('б', 'Б'), ('в', 'В'), ('г', 'Г'), ('д', 'Д'), ('е', 'Е'),
   ('ж', 'Ж'), ('з', 'З'), ('и', 'И'), ('й', 'Й'), ('к', 'К'), ('л', 'Л'),
   ('м', 'М'), ('н', 'Н'), ('о', 'О'), ('п', 'П'), ('р', 'Р'), ('с', 'С'),
   ('т', 'Т'), ('у', 'У'), ('ф', 'Ф'), ('х', 'Х'), ('ц', 'Ц'), ('ч', 'Ч'),
   ('ш', 'Ш'), ('щ', 'Щ'), ('ъ', 'Ъ'), ('ы', 'Ы'), ('ь', 'Ь'), ('э', 'Э'),
   ('ю', 'Ю'), ('я', 'Я'),
   ('і', 'І'), ('ї', 'Ї'), ('є', 'Є'), ('ґ', 'Ґ')]

/-- `caseTable` with the pairs swapped: upper-to-lower mapping. -/
def caseTableRev : List (Char × Char) := caseTable.map (fun p => (p.2, p.1))

def toUpperChar (c : Char) : Char :=
  match List.lookup c caseTable with
  | some u => u
  | none => c

def toLowerChar (c : Char) : Char :=
  match List.lookup c caseTableRev with
  | some l => l
  | none => c

/-- Python `c.isupper()` for a single character (restricted alphabet). -/
def isUpperChar (c : Char) : Bool := (List.lookup c caseTableRev).isSome

/-- Python `c.islower()` for a single character (restricted alphabet). -/
def isLowerChar (c : Char) : Bool := (List.lookup c caseTable).isSome

/-- Model of Python `str.lower()`. -/
def pyLower (s : Str) : Str := s.map toLowerChar

/-- Model of Python `str.upper()`. -/
def pyUpper (s : Str) : Str := s.map toUpperChar

/-- Model of Python `str.capitalize()`: first character upper-cased, the rest lower-cased. -/
def pyCapitalize : Str → Str
  | [] => []
  | c :: rest => toUpperChar c :: rest.map toLowerChar

/-- First character of a word, with a dummy blank for the empty word. -/
def headChar : Str → Char
  | [] => ' '
  | c :: _ => c

/-- Python `word and word[0].isupper()`. -/
def isUpperFirst (s : Str) : Bool :=
  match s with
  | [] => false
  | c :: _ => isUpperChar c

/-- A word that is entirely lower-case and starts with a lower-case letter,
as pymorphy3 dictionary forms are. -/
def isLcWord (s : Str) : Bool :=
  match s with
  | [] => false
  | c :: cs => isLowerChar c && (c :: cs).all (fun x => toLowerChar x == x)

-- ---------------------------------------------------------------------------
-- The external morphological analyzer (pymorphy3), as an abstract collaborator
-- ---------------------------------------------------------------------------

/-- One tagged surface form inside a lexeme. -/
structure WForm where
  word : Str
  tag : List Str

/-- One candidate parse: tag set, lexeme, and the case-inflection capability.
`inflect c = none` models pymorphy3 returning `None` for an impossible case. -/
structure Parse where
  tag : List Str
  lexeme : List WForm
  inflect : Str → Option Str

/-- The analyzer: ranked candidate parses for a word (possibly empty). -/
structure Analyzer where
  parse : Str → List Parse

-- ---------------------------------------------------------------------------
-- SentenceMorpher
-- ---------------------------------------------------------------------------

/-- The fixed 7-symbol case set (`SentenceMorpher.supported_cases`). -/
def supportedCases : List Str :=
  [lit "nomn", lit "gent", lit "datv", lit "accs", lit "ablt", lit "loct", lit "voct"]

/-- Invalid-argument signal raised by the case-validated entry points. -/
inductive MorphError where
  | unsupportedCase (c : Str)
deriving DecidableEq

/-- A lexeme entry tagged dative whose surface form ends in `у` or `ю`
(the preferred short dative form). -/
def isShortDatv (f : WForm) : Bool :=
  f.tag.contains (lit "datv") && (endsWith (lit "у") f.word || endsWith (lit "ю") f.word)

/-- `SentenceMorpher._refine_dative_case`, instrumented with the number of
analyzer `parse` calls it makes. -/
def refineDativeC (m : Analyzer) (originalWord inflectedWord : Str) : Str × Nat :=
  if (endsWith (lit "ові") inflectedWord || endsWith (lit "еві") inflectedWord ||
      endsWith (lit "єві") inflectedWord) = false then
    (inflectedWord, 0)
  else
    match m.parse originalWord with
    | [] => (inflectedWord, 1)
    | p :: _ =>
      match p.lexeme.find? isShortDatv with
      | some f =>
        ((if isUpperFirst originalWord then pyCapitalize f.word else f.word), 1)
      | none => (inflectedWord, 1)

/-- `SentenceMorpher._refine_dative_case` (result only). -/
def refineDative (m : Analyzer) (originalWord inflectedWord : Str) : Str :=
  (refineDativeC m originalWord inflectedWord).1

/-- `SentenceMorpher.morph_word`, instrumented with the number of analyzer
`parse` calls.  An empty parse list or a `none` inflection (the Python
`IndexError` / `None` cases) falls back to the original word. -/
def morphWordC (m : Analyzer) (word caseStr : Str) : Str × Nat :=
  if word = [] ∨ caseStr = [] then (word, 0)
  else
    match m.parse word with
    | [] => (word, 1)
    | parsed :: _ =>
      match parsed.inflect caseStr with
      | none => (word, 1)
      | some iw =>
        let rc := if caseStr = lit "datv" then refineDativeC m word iw else (iw, 0)
        ((if isUpperFirst word then pyCapitalize rc.1 else rc.1), 1 + rc.2)

/-- `SentenceMorpher.morph_word` (result only). -/
def morph_word (m : Analyzer) (word caseStr : Str) : Str :=
  (morphWordC m word caseStr).1

/-- Whether the top parse of a word carries the `ADJF` tag
(with parse failure counting as not-adjective). -/
def isAdjTop (m : Analyzer) (w : Str) : Bool :=
  match m.parse w with
  | [] => false
  | p :: _ => p.tag.contains (lit "ADJF")

/-- `SentenceMorpher._process_position_part`. -/
def processPositionPart (m : Analyzer) (ws : List Str) (caseStr : Str) : List Str :=
  match ws with
  | [] => []
  | [w0] => [morph_word m w0 caseStr]
  | w0 :: w1 :: rest2 =>
    if isAdjTop m w0 then
      morph_word m w0 caseStr :: morph_word m w1 caseStr :: rest2
    else
      morph_word m w0 caseStr :: w1 :: rest2

/-- `SentenceMorpher.morph_sentence`. -/
def morph_sentence (m : Analyzer) (sentence caseStr : Str) (isPosition : Bool) :
    Except MorphError Str :=
  if supportedCases.contains caseStr = false then .error (.unsupportedCase caseStr)
  else if pyStrip sentence = [] then .ok []
  else if isPosition = false then
    .ok (joinSep (lit " ") ((pySplitWs (pyStrip sentence)).map (fun w => morph_word m w caseStr)))
  else
    .ok (joinSep (lit " - ") ((splitOnDash sentence).map
      (fun part => joinSep (lit " ") (processPositionPart m (pySplitWs (pyStrip part)) caseStr))))

-- ---------------------------------------------------------------------------
-- NameMorpher
-- ---------------------------------------------------------------------------

/-- The per-assembler inflection cache (`NameMorpher._case_cache`), newest entry first. -/
abbrev Cache := List (Str × Str)

def boolStr : Bool → Str
  | true => lit "True"
  | false => lit "False"

/-- The cache key `f"{name_part.lower()}_{case}_{is_feminine}"`. -/
def cacheKey (namePart caseStr : Str) (fem : Bool) : Str :=
  pyLower namePart ++ lit "_" ++ caseStr ++ lit "_" ++ boolStr fem

/-- `NameMorpher._inflect_name_part`, instrumented with the number of analyzer
`parse` calls (third component).  Returns the inflected part and the updated cache. -/
def inflectNamePart (m : Analyzer) (cache : Cache) (namePart caseStr : Str)
    (isFeminine : Bool) : Str × Cache × Nat :=
  if namePart = [] then ([], cache, 0)
  else
    let key := cacheKey namePart caseStr isFeminine
    match List.lookup key cache with
    | some v => (v, cache, 0)
    | none =>
      let femRes : Option Str :=
        if isFeminine then
          match m.parse namePart with
          | [] => none
          | p :: _ =>
            if p.tag.contains (lit "Sgtm") = true ∧
               (endsWith (lit "а") namePart || endsWith (lit "я") namePart) = false ∧
               caseStr ≠ lit "nomn" then
              some (if isUpperFirst namePart then pyCapitalize namePart else namePart)
            else none
        else none
      let nFem : Nat := if isFeminine then 1 else 0
      let rn : Str × Nat :=
        match femRes with
        | some r => (r, nFem)
        | none =>
          let mw := morphWordC m namePart caseStr
          (mw.1, nFem + mw.2)
      (rn.1, (key, rn.1) :: cache, rn.2)

/-- `NameMorpher._determine_gender`: `true` means feminine. -/
def determineGender (m : Analyzer) (firstName patronymic : Str) : Bool :=
  let pl := pyLower patronymic
  if endsWith (lit "івна") pl || endsWith (lit "ївна") pl then true
  else if endsWith (lit "ич") pl || endsWith (lit "ович") pl then false
  else if firstName = [] then false
  else
    match m.parse firstName with
    | [] => false
    | p :: _ => p.tag.contains (lit "femn")

/-- `NameMorpher.morph_name`.  Returns the assembled name and the updated cache. -/
def morph_name (m : Analyzer) (cache : Cache) (fullname caseStr : Str)
    (uppercaseSurname : Bool) : Except MorphError (Str × Cache) :=
  if supportedCases.contains caseStr = false then .error (.unsupportedCase caseStr)
  else if pyStrip fullname = [] then .ok ([], cache)
  else
    let parts := pySplitWs (pyStrip fullname)
    let surname := parts.getD 0 []
    let firstName := parts.getD 1 []
    let patronymic := parts.getD 2 []
    let fem := determineGender m firstName patronymic
    let t0 := inflectNamePart m cache surname caseStr fem
    let t1 := inflectNamePart m t0.2.1 firstName caseStr fem
    let t2 := inflectNamePart m t1.2.1 patronymic caseStr fem
    let ms := if uppercaseSurname then pyUpper t0.1 else t0.1
    .ok (joinSep (lit " ") (([ms, t1.1, t2.1]).filter (fun x => !x.isEmpty)), t2.2.1)

-- ---------------------------------------------------------------------------
-- Concrete analyzers used by witnesses and counterexamples
-- ---------------------------------------------------------------------------

/-- An analyzer that recognizes no word at all (every parse list is empty). -/
def AEmpty : Analyzer := ⟨fun _ => []⟩

/-- A parse whose top tag set carries the feminine mark. -/
def PFem : Parse := ⟨[lit "femn"], [], fun _ => none⟩

/-- An analyzer whose top parse of every word is feminine-tagged. -/
def AFem : Analyzer := ⟨fun _ => [PFem]⟩

/-- A parse whose top tag set carries the adjective mark. -/
def PAdj : Parse := ⟨[lit "ADJF"], [], fun _ => none⟩

/-- An analyzer whose top parse of every word is adjective-tagged. -/
def AAdj : Analyzer := ⟨fun _ => [PAdj]⟩

/-- A parse whose top tag set carries the fixed-form-surname mark. -/
def PSg : Parse := ⟨[lit "Sgtm"], [], fun _ => none⟩

/-- An analyzer whose top parse of every word is fixed-form-surname-tagged. -/
def ASg : Analyzer := ⟨fun _ => [PSg]⟩

/-- The lexeme of `директор`, with both the long and the short dative form. -/
def dirLexeme : List WForm :=
  [⟨lit "директор", [lit "nomn"]⟩, ⟨lit "директора", [lit "gent"]⟩,
   ⟨lit "директору", [lit "datv"]⟩, ⟨lit "директорові", [lit "datv"]⟩]

/-- The top parse of `директор`: a noun whose naive dative is the long form. -/
def PDir : Parse :=
  ⟨[lit "NOUN"], dirLexeme, fun c => if c = lit "datv" then some (lit "директорові") else none⟩

/-- An analyzer whose top parse of every word is `PDir`. -/
def ADir : Analyzer := ⟨fun _ => [PDir]⟩

/-- A parse that inflects every case to the fixed lower-case form `слова`. -/
def PLc : Parse := ⟨[], [], fun _ => some (lit "слова")⟩

/-- An analyzer whose parses only emit lower-case forms. -/
def ALc : Analyzer := ⟨fun _ => [PLc]⟩

/-- The analyzer contract this rule layer relies on for capitalization:
pymorphy3 dictionary forms (inflection results and lexeme entries) are
non-empty, fully lower-case words. -/
def lowerOut (m : Analyzer) : Prop :=
  ∀ w p, p ∈ m.parse w →
    (∀ c iw, p.inflect c = some iw → isLcWord iw = true) ∧
    (∀ f, f ∈ p.lexeme → isLcWord f.word = true)

/-- The long dative endings the refinement rule replaces. -/
def hasLongDativeSuffix (iw : Str) : Bool :=
  endsWith (lit "ові") iw || endsWith (lit "еві") iw || endsWith (lit "єві") iw

/-- The patronymic has neither a feminine nor a masculine gender suffix. -/
def noGenderSuffix (pl : Str) : Bool :=
  !(endsWith (lit "івна") pl || endsWith (lit "ївна") pl ||
    endsWith (lit "ич") pl || endsWith (lit "ович") pl)

/-- The assembled string of a successful `morph_name` result. -/
def okStr : Except MorphError (Str × Cache) → Str
  | .ok (s, _) => s
  | .error _ => []

example : morph_word AEmpty (lit "слово") (lit "gent") = lit "слово" := by decide

example : pyLower (lit "Петрович") = lit "петрович" := by decide

example : pyCapitalize (lit "дИРЕКТОР") = lit "Директор" := by decide

example : pySplitWs (lit "  Шевченко Тарас  Григорович ") =
    [lit "Шевченко", lit "Тарас", lit "Григорович"] := by decide

example : splitOnDash (lit "Директор - Заступник директора") =
    [lit "Директор", lit "Заступник директора"] := by decide

-- ---------------------------------------------------------------------------
-- Helper lemmas: case table
-- ---------------------------------------------------------------------------

theorem lookupPairMem {α β : Type} [BEq α] [LawfulBEq α] :
    ∀ (tbl : List (α × β)) (a : α) (b : β), List.lookup a tbl = some b → (a, b) ∈ tbl := by
  intro tbl
  induction tbl with
  | nil => intro a b h; simp [List.lookup] at h
  | cons hd tl ih =>
    intro a b h
    obtain ⟨k, v⟩ := hd
    rw [List.lookup] at h
    by_cases hk : a == k
    · rw [hk] at h
      simp only [Option.some.injEq] at h
      have hak : a = k := eq_of_beq hk
      subst hak; subst h
      exact List.mem_cons_self _ _
    · rw [Bool.not_eq_true] at hk
      rw [hk] at h
      exact List.mem_cons_of_mem _ (ih a b h)

theorem tblRevNoneOfFst :
    caseTable.all (fun p => (List.lookup p.1 caseTableRev).isNone) = true := by decide

theorem tblNoneOfRevFst :
    caseTableRev.all (fun p => (List.lookup p.1 caseTable).isNone) = true := by decide

theorem tblRevSomeOfSnd :
    caseTable.all (fun p => (List.lookup p.2 caseTableRev).isSome) = true := by decide

theorem tblNoneOfSnd :
    caseTable.all (fun p => (List.lookup p.2 caseTable).isNone) = true := by decide

theorem tblRevNoneOfRevSnd :
    caseTableRev.all (fun p => (List.lookup p.2 caseTableRev).isNone) = true := by decide

theorem isUpper_toUpperChar {c : Char} (h : isLowerChar c = true) :
    isUpperChar (toUpperChar c) = true := by
  unfold isLowerChar at h
  obtain ⟨u, hu⟩ := Option.isSome_iff_exists.mp h
  have hmem := lookupPairMem _ _ _ hu
  have hall := List.all_eq_true.mp tblRevSomeOfSnd _ hmem
  unfold toUpperChar
  rw [hu]
  exact hall

theorem notLower_toUpperChar {c : Char} (h : isLowerChar c = true) :
    isLowerChar (toUpperChar c) = false := by
  unfold isLowerChar at h ⊢
  obtain ⟨u, hu⟩ := Option.isSome_iff_exists.mp h
  have hmem := lookupPairMem _ _ _ hu
  have hall := List.all_eq_true.mp tblNoneOfSnd _ hmem
  unfold toUpperChar
  rw [hu]
  simpa [Option.isNone_iff_eq_none] using hall

theorem toUpperChar_fixed {c : Char} (h : isLowerChar c = false) : toUpperChar c = c := by
  unfold isLowerChar at h
  unfold toUpperChar
  cases hl : List.lookup c caseTable with
  | none => rfl
  | some u => rw [hl] at h; simp at h

theorem notUpper_of_lower {c : Char} (h : isLowerChar c = true) : isUpperChar c = false := by
  unfold isLowerChar at h
  unfold isUpperChar
  obtain ⟨u, hu⟩ := Option.isSome_iff_exists.mp h
  have hmem := lookupPairMem _ _ _ hu
  have hall := List.all_eq_true.mp tblRevNoneOfFst _ hmem
  simpa [Option.isNone_iff_eq_none] using hall

theorem notLower_of_upper {c : Char} (h : isUpperChar c = true) : isLowerChar c = false := by
  unfold isUpperChar at h
  unfold isLowerChar
  obtain ⟨l, hl⟩ := Option.isSome_iff_exists.mp h
  have hmem := lookupPairMem _ _ _ hl
  have hall := List.all_eq_true.mp tblNoneOfRevFst _ hmem
  simpa [Option.isNone_iff_eq_none] using hall

theorem toLowerChar_idem (c : Char) : toLowerChar (toLowerChar c) = toLowerChar c := by
  unfold toLowerChar
  cases hl : List.lookup c caseTableRev with
  | none => rw [hl]
  | some l =>
    have hmem := lookupPairMem _ _ _ hl
    have hall := List.all_eq_true.mp tblRevNoneOfRevSnd _ hmem
    rw [Option.isNone_iff_eq_none] at hall
    rw [hall]

-- ---------------------------------------------------------------------------
-- Helper lemmas: lower-case words and capitalization
-- ---------------------------------------------------------------------------

theorem isLcWord_parts {s : Str} (h : isLcWord s = true) :
    s ≠ [] ∧ isLowerChar (headChar s) = true ∧
      s.all (fun x => toLowerChar x == x) = true := by
  cases s with
  | nil => simp [isLcWord] at h
  | cons c cs =>
    rw [isLcWord, Bool.and_eq_true] at h
    exact ⟨by simp, h.1, h.2⟩

theorem map_toLower_fixed (l : Str) :
    (l.map toLowerChar).all (fun x => toLowerChar x == x) = true := by
  rw [List.all_eq_true]
  intro x hx
  obtain ⟨y, _, hy⟩ := List.mem_map.mp hx
  subst hy
  simp [toLowerChar_idem]

theorem pyCapitalize_head_upper {s : Str} (h : isLcWord s = true) :
    isUpperChar (headChar (pyCapitalize s)) = true := by
  obtain ⟨hne, hlow, _⟩ := isLcWord_parts h
  cases s with
  | nil => exact absurd rfl hne
  | cons c cs => exact isUpper_toUpperChar hlow

theorem pyCapitalize_tail_lower (s : Str) :
    (pyCapitalize s).tail.all (fun x => toLowerChar x == x) = true := by
  cases s with
  | nil => rfl
  | cons c cs => simpa [pyCapitalize] using map_toLower_fixed cs

theorem pyCapitalize_idem {s : Str} (h : isLcWord s = true) :
    pyCapitalize (pyCapitalize s) = pyCapitalize s := by
  obtain ⟨hne, hlow, _⟩ := isLcWord_parts h
  cases s with
  | nil => rfl
  | cons c cs =>
    have h1 : isUpperChar (toUpperChar c) = true := isUpper_toUpperChar hlow
    have h2 : toUpperChar (toUpperChar c) = toUpperChar c :=
      toUpperChar_fixed (notLower_of_upper h1)
    simp only [pyCapitalize, h2, List.map_map]
    congr 1
    refine List.map_congr_left ?_
    intro a _
    exact toLowerChar_idem a

theorem lcWord_tail_lower {s : Str} (h : isLcWord s = true) :
    s.tail.all (fun x => toLowerChar x == x) = true := by
  obtain ⟨hne, _, hall⟩ := isLcWord_parts h
  cases s with
  | nil => rfl
  | cons c cs =>
    rw [List.all_cons, Bool.and_eq_true] at hall
    exact hall.2

-- ---------------------------------------------------------------------------
-- Helper lemmas: the name-part inflection cache
-- ---------------------------------------------------------------------------

theorem lookup_cons_self {k v : Str} {t : Cache} :
    List.lookup k ((k, v) :: t) = some v := by
  simp [List.lookup]

theorem inflectNamePart_hit (m : Analyzer) (cache : Cache) (part c : Str) (fem : Bool)
    (v : Str) (hp : part ≠ [])
    (hhit : List.lookup (cacheKey part c fem) cache = some v) :
    inflectNamePart m cache part c fem = (v, cache, 0) := by
  simp only [inflectNamePart, if_neg hp, hhit]

theorem inflectNamePart_growth (m : Analyzer) (cache : Cache) (part c : Str) (fem : Bool)
    (hp : part ≠ [])
    (hmiss : List.lookup (cacheKey part c fem) cache = none) :
    (inflectNamePart m cache part c fem).2.1 =
      (cacheKey part c fem, (inflectNamePart m cache part c fem).1) :: cache := by
  simp only [inflectNamePart, if_neg hp, hmiss]

-- ---------------------------------------------------------------------------
-- Claim theorems
-- ---------------------------------------------------------------------------

/-- C1, counterexample.  The claim asserts a patronymic suffix-repair step:
after the general inflection, a patronymic still ending in `-ич` gets a fixed
suffix appended (genitive `-а`, so the result ends in `-ича`; instrumental
`-ем`, so the result ends in `-ичем`).  The code has no such step: the name
assembler inflects the patronymic through the plain word inflector with no
patronymic flag.  With an analyzer that cannot inflect the word (per the
spec, such analyzer failure falls back to the original word, after which the
repair rule should still fire), the patronymic `Петрович` inflected to
genitive or to instrumental (`ablt`) is returned unchanged, still ending in
`-ич` with no suffix appended. -/
theorem C1_counterexample :
    (inflectNamePart AEmpty [] (lit "Петрович") (lit "gent") false).1 = lit "Петрович" ∧
    endsWith (lit "ича") (inflectNamePart AEmpty [] (lit "Петрович") (lit "gent") false).1 =
      false ∧
    (inflectNamePart AEmpty [] (lit "Петрович") (lit "ablt") false).1 = lit "Петрович" ∧
    endsWith (lit "ичем") (inflectNamePart AEmpty [] (lit "Петрович") (lit "ablt") false).1 =
      false ∧
    okStr (morph_name AEmpty [] (lit "Шевченко Тарас Петрович") (lit "gent") true) =
      lit "ШЕВЧЕНКО Тарас Петрович" ∧
    endsWith (lit "ича")
      (okStr (morph_name AEmpty [] (lit "Шевченко Тарас Петрович") (lit "gent") true)) =
      false := by
  decide

/-- C1, amended.  There is no patronymic suffix-repair rule and no patronymic
flag in the code: on a cache miss the name assembler inflects the patronymic
part (whose gender context is masculine, as `-ич` patronymics are detected
masculine) exactly like any other word, via the general word inflector, with
no suffix substitution for `-ич` endings in any case. -/
theorem C1_amended_no_patronymic_rule (m : Analyzer) (p c : Str) :
    (inflectNamePart m [] p c false).1 = morph_word m p c := by
  by_cases hp : p = []
  · subst hp
    simp [inflectNamePart, morph_word, morphWordC]
  · simp [inflectNamePart, hp, List.lookup, morph_word]

/-- C2, counterexample.  The claim asserts that `morph_word`, given a case
code outside the 7-symbol set, signals a contract violation rather than
silently returning the word unchanged.  In the code `morph_word` performs no
case validation at all: with the unsupported case code `xxxx` it silently
returns the word unchanged (here via the caught parse failure fallback). -/
theorem C2_counterexample :
    supportedCases.contains (lit "xxxx") = false ∧
    morph_word AEmpty (lit "слово") (lit "xxxx") = lit "слово" := by
  decide

/-- C2, amended.  Only the two public entry points `morph_sentence` and
`morph_name` validate the case and signal an invalid-argument error;
`morph_word` does not validate the case, and when the analyzer yields no
parse it silently returns the word unchanged for any case code. -/
theorem C2_amended_validation (m : Analyzer) (cache : Cache) (s w c : Str) (pos uc : Bool)
    (hc : supportedCases.contains c = false) (hw : m.parse w = []) :
    morph_sentence m s c pos = .error (.unsupportedCase c) ∧
    morph_name m cache s c uc = .error (.unsupportedCase c) ∧
    morph_word m w c = w := by
  refine ⟨?_, ?_, ?_⟩
  · unfold morph_sentence
    rw [if_pos hc]
  · unfold morph_name
    rw [if_pos hc]
  · by_cases h0 : w = [] ∨ c = []
    · simp [morph_word, morphWordC, h0]
    · simp [morph_word, morphWordC, h0, hw]

/-- C2, witness for the amended theorem at concrete inputs. -/
theorem C2_amended_witness :
    supportedCases.contains (lit "bad") = false ∧
    morph_sentence AEmpty (lit "текст") (lit "bad") false =
      .error (.unsupportedCase (lit "bad")) ∧
    morph_name AEmpty [] (lit "текст") (lit "bad") true =
      .error (.unsupportedCase (lit "bad")) ∧
    morph_word AEmpty (lit "слово") (lit "bad") = lit "слово" := by
  have h := C2_amended_validation AEmpty [] (lit "текст") (lit "слово") (lit "bad")
    false true (by decide) rfl
  exact ⟨by decide, h.1, h.2.1, h.2.2⟩

/-- C6.  For any case code outside the 7-symbol set, both `morph_sentence`
and `morph_name` fail with the invalid-argument signal; for a supported
case, blank (whitespace-only) input returns empty output from both entry
points. -/
theorem C6_entry_validation (m : Analyzer) (cache : Cache) (s c : Str) (pos uc : Bool) :
    (supportedCases.contains c = false →
      morph_sentence m s c pos = .error (.unsupportedCase c) ∧
      morph_name m cache s c uc = .error (.unsupportedCase c)) ∧
    (supportedCases.contains c = true → pyStrip s = [] →
      morph_sentence m s c pos = .ok [] ∧ morph_name m cache s c uc = .ok ([], cache)) := by
  constructor
  · intro hc
    constructor
    · unfold morph_sentence
      rw [if_pos hc]
    · unfold morph_name
      rw [if_pos hc]
  · intro hc hs
    constructor
    · unfold morph_sentence
      rw [if_neg (by intro hcon; rw [hcon] at hc; exact Bool.noConfusion hc), if_pos hs]
    · unfold morph_name
      rw [if_neg (by intro hcon; rw [hcon] at hc; exact Bool.noConfusion hc), if_pos hs]

/-- C6, witness: the empty case code is rejected by both entry points, and a
whitespace-only input with the supported case `datv` yields empty output. -/
theorem C6_witness :
    supportedCases.contains ([] : Str) = false ∧
    morph_sentence AEmpty (lit "слово") [] true = .error (.unsupportedCase []) ∧
    morph_name AEmpty [] (lit "слово") [] true = .error (.unsupportedCase []) ∧
    supportedCases.contains (lit "datv") = true ∧
    morph_sentence AEmpty (lit "   ") (lit "datv") false = .ok [] ∧
    morph_name AEmpty [] (lit "   ") (lit "datv") true = .ok ([], []) := by
  have h1 := (C6_entry_validation AEmpty [] (lit "слово") [] true true).1 (by decide)
  have h2 := (C6_entry_validation AEmpty [] (lit "   ") (lit "datv") false true).2
    (by decide) (by decide)
  exact ⟨by decide, h1.1, h1.2, by decide, h2.1, h2.2⟩

/-- C7.  Gender detection, first match winning on the lower-cased
patronymic as in the source: suffix `івна`/`ївна` gives feminine; otherwise
suffix `ич`/`ович` gives masculine; otherwise feminine exactly when a first
name is present and the top-ranked analyzer tag set for it carries the
feminine mark; masculine in every remaining situation, including when
parsing the first name fails (empty parse list). -/
theorem C7_gender (m : Analyzer) (fn p : Str) :
    ((endsWith (lit "івна") (pyLower p) || endsWith (lit "ївна") (pyLower p)) = true →
      determineGender m fn p = true) ∧
    ((endsWith (lit "івна") (pyLower p) || endsWith (lit "ївна") (pyLower p)) = false →
     (endsWith (lit "ич") (pyLower p) || endsWith (lit "ович") (pyLower p)) = true →
      determineGender m fn p = false) ∧
    (noGenderSuffix (pyLower p) = true → fn = [] → determineGender m fn p = false) ∧
    (noGenderSuffix (pyLower p) = true → fn ≠ [] → m.parse fn = [] →
      determineGender m fn p = false) ∧
    (∀ q qs, noGenderSuffix (pyLower p) = true → fn ≠ [] → m.parse fn = q :: qs →
      determineGender m fn p = q.tag.contains (lit "femn")) := by
  refine ⟨?_, ?_, ?_, ?_, ?_⟩
  · intro h1
    simp [determineGender, h1]
  · intro h1 h2
    simp [determineGender, h1, h2]
  · intro h hf
    simp only [noGenderSuffix, Bool.not_eq_true', Bool.or_eq_false_iff] at h
    simp [determineGender, h.1.1.1, h.1.1.2, h.1.2, h.2, hf]
  · intro h hf hparse
    simp only [noGenderSuffix, Bool.not_eq_true', Bool.or_eq_false_iff] at h
    simp [determineGender, h.1.1.1, h.1.1.2, h.1.2, h.2, hf, hparse]
  · intro q qs h hf hparse
    simp only [noGenderSuffix, Bool.not_eq_true', Bool.or_eq_false_iff] at h
    simp [determineGender, h.1.1.1, h.1.1.2, h.1.2, h.2, hf, hparse]

/-- C7, witness: each branch of the gender heuristic at concrete names. -/
theorem C7_witness :
    determineGender AEmpty [] (lit "Петрівна") = true ∧
    determineGender AEmpty [] (lit "Петрович") = false ∧
    determineGender AFem (lit "Олена") [] = true ∧
    determineGender AEmpty (lit "Олена") [] = false := by
  refine ⟨?_, ?_, ?_, ?_⟩
  · exact (C7_gender AEmpty [] (lit "Петрівна")).1 (by decide)
  · exact (C7_gender AEmpty [] (lit "Петрович")).2.1 (by decide) (by decide)
  · have h := (C7_gender AFem (lit "Олена") []).2.2.2.2 PFem [] (by decide) (by decide) rfl
    rw [h]
    decide
  · exact (C7_gender AEmpty (lit "Олена") []).2.2.2.1 (by decide) (by decide) rfl

/-- C3.  Dative refinement: if the inflected analyzer output lacks the
long `-ові`/`-еві`/`-єві` ending it is returned unchanged; otherwise the
first dative-tagged form ending in `у`/`ю` in the lexeme of the top parse
replaces the output, with the leading capitalization of the original word
reapplied, and the long form is kept when no such short form exists.
`morph_word` routes every dative inflection through this refinement. -/
theorem C3_dative_refinement (m : Analyzer) (w iw : Str) (p : Parse) (ps : List Parse)
    (hp : m.parse w = p :: ps) :
    (hasLongDativeSuffix iw = false → refineDative m w iw = iw) ∧
    (hasLongDativeSuffix iw = true → p.lexeme.find? isShortDatv = none →
      refineDative m w iw = iw) ∧
    (∀ f, hasLongDativeSuffix iw = true → p.lexeme.find? isShortDatv = some f →
      refineDative m w iw = (if isUpperFirst w then pyCapitalize f.word else f.word)) ∧
    (∀ infl, w ≠ [] → p.inflect (lit "datv") = some infl →
      morph_word m w (lit "datv") =
        (if isUpperFirst w then pyCapitalize (refineDative m w infl)
         else refineDative m w infl)) := by
  refine ⟨?_, ?_, ?_, ?_⟩
  · intro h1
    simp only [hasLongDativeSuffix] at h1
    unfold refineDative refineDativeC
    rw [if_pos h1]
  · intro h1 h2
    simp only [hasLongDativeSuffix] at h1
    unfold refineDative refineDativeC
    rw [if_neg (by simp [h1]), hp]
    simp [h2]
  · intro f h1 h2
    simp only [hasLongDativeSuffix] at h1
    unfold refineDative refineDativeC
    rw [if_neg (by simp [h1]), hp]
    simp [h2]
  · intro infl hw hi
    unfold morph_word morphWordC
    rw [if_neg (by rw [not_or]; exact ⟨hw, by decide⟩), hp]
    simp only [hi, if_pos rfl]
    rfl

/-- C3, witness: with the lexeme of `директор` containing the short dative
`директору`, the dative of `директор` is refined away from the long form. -/
theorem C3_witness :
    morph_word ADir (lit "директор") (lit "datv") = lit "директору" := by
  have h4 := (C3_dative_refinement ADir (lit "директор") (lit "директорові") PDir [] rfl).2.2.2
    (lit "директорові") (by decide) (by decide)
  rw [h4]
  decide

/-- C4.  Memoization in the name assembler: after one call to
`_inflect_name_part`, a second call with the same lower-cased part, same
case and same gender flag returns the identical result, leaves the cache
unchanged, and performs zero analyzer calls (it is served from the cache
keyed by lower-cased word, case and gender flag). -/
theorem C4_memoization (m : Analyzer) (cache : Cache) (part part2 c : Str) (fem : Bool)
    (hl : pyLower part2 = pyLower part) :
    (inflectNamePart m (inflectNamePart m cache part c fem).2.1 part2 c fem).1 =
      (inflectNamePart m cache part c fem).1 ∧
    (inflectNamePart m (inflectNamePart m cache part c fem).2.1 part2 c fem).2.1 =
      (inflectNamePart m cache part c fem).2.1 ∧
    (inflectNamePart m (inflectNamePart m cache part c fem).2.1 part2 c fem).2.2 = 0 := by
  by_cases hp : part = []
  · have hp2 : part2 = [] := by
      rw [hp] at hl
      simpa [pyLower, List.map_eq_nil_iff] using hl
    subst hp
    subst hp2
    simp [inflectNamePart]
  · have hp2 : part2 ≠ [] := by
      intro h2
      rw [h2] at hl
      have hnil : pyLower part = [] := hl.symm
      exact hp (by simpa [pyLower, List.map_eq_nil_iff] using hnil)
    have hkey : cacheKey part2 c fem = cacheKey part c fem := by
      simp [cacheKey, hl]
    cases hlk : List.lookup (cacheKey part c fem) cache with
    | some v =>
      have h1 : inflectNamePart m cache part c fem = (v, cache, 0) :=
        inflectNamePart_hit m cache part c fem v hp hlk
      rw [h1]
      have h2 : inflectNamePart m cache part2 c fem = (v, cache, 0) :=
        inflectNamePart_hit m cache part2 c fem v hp2 (by rw [hkey]; exact hlk)
      rw [h2]
      exact ⟨rfl, rfl, rfl⟩
    | none =>
      have hg := inflectNamePart_growth m cache part c fem hp hlk
      rw [hg]
      have h2 := inflectNamePart_hit m
        ((cacheKey part c fem, (inflectNamePart m cache part c fem).1) :: cache)
        part2 c fem (inflectNamePart m cache part c fem).1 hp2
        (by rw [hkey]; exact lookup_cons_self)
      rw [h2]
      exact ⟨rfl, rfl, rfl⟩

/-- C4, witness: the second call (with different capitalization of the same
part) returns the result of the first call and performs zero analyzer calls. -/
theorem C4_witness :
    pyLower (lit "тарас") = pyLower (lit "Тарас") ∧
    (inflectNamePart AEmpty (inflectNamePart AEmpty [] (lit "Тарас") (lit "datv") false).2.1
      (lit "тарас") (lit "datv") false).1 =
      (inflectNamePart AEmpty [] (lit "Тарас") (lit "datv") false).1 ∧
    (inflectNamePart AEmpty (inflectNamePart AEmpty [] (lit "Тарас") (lit "datv") false).2.1
      (lit "тарас") (lit "datv") false).2.2 = 0 := by
  have h := C4_memoization AEmpty [] (lit "Тарас") (lit "тарас") (lit "datv") false (by decide)
  exact ⟨by decide, h.1, h.2.2⟩

/-- C5.  Position-title mode: the input is split on the literal `" - "`,
each side is segmented and processed independently and the results are
rejoined with `" - "`; within a segment, when the top analyzer parse
marks the first word an adjective and a second word exists, exactly the
first two words are inflected and the rest kept verbatim; otherwise
exactly the first word is inflected; an empty segment yields an empty
result. -/
theorem C5_position_mode (m : Analyzer) (s c : Str)
    (hc : supportedCases.contains c = true) (hs : pyStrip s ≠ []) :
    morph_sentence m s c true =
      .ok (joinSep (lit " - ") ((splitOnDash s).map
        (fun part => joinSep (lit " ") (processPositionPart m (pySplitWs (pyStrip part)) c)))) ∧
    processPositionPart m [] c = [] ∧
    (∀ w0 w1 rest, isAdjTop m w0 = true →
      processPositionPart m (w0 :: w1 :: rest) c =
        morph_word m w0 c :: morph_word m w1 c :: rest) ∧
    (∀ w0 rest, isAdjTop m w0 = false →
      processPositionPart m (w0 :: rest) c = morph_word m w0 c :: rest) ∧
    (∀ w0, processPositionPart m [w0] c = [morph_word m w0 c]) := by
  refine ⟨?_, rfl, ?_, ?_, ?_⟩
  · unfold morph_sentence
    rw [if_neg (by intro hcon; rw [hcon] at hc; exact Bool.noConfusion hc), if_neg hs]
    rfl
  · intro w0 w1 rest ha
    simp [processPositionPart, ha]
  · intro w0 rest ha
    cases rest with
    | nil => simp [processPositionPart]
    | cons w1 r2 => simp [processPositionPart, ha]
  · intro w0
    rfl

/-- C5, witness: with an adjective-tagged first word and four words in the
segment, exactly the first two are inflected and the rest kept verbatim. -/
theorem C5_witness :
    processPositionPart AAdj
      [lit "Головний", lit "спеціаліст", lit "відділу", lit "кадрів"] (lit "gent") =
      morph_word AAdj (lit "Головний") (lit "gent") ::
        morph_word AAdj (lit "спеціаліст") (lit "gent") ::
        [lit "відділу", lit "кадрів"] := by
  exact (C5_position_mode AAdj (lit "х") (lit "gent") (by decide) (by decide)).2.2.1
    (lit "Головний") (lit "спеціаліст") [lit "відділу", lit "кадрів"] (by decide)

-- ---------------------------------------------------------------------------
-- Helper lemmas: name assembly
-- ---------------------------------------------------------------------------

theorem getD_take3 {α : Type} (ws : List α) (d : α) :
    (ws.take 3).getD 0 d = ws.getD 0 d ∧ (ws.take 3).getD 1 d = ws.getD 1 d ∧
      (ws.take 3).getD 2 d = ws.getD 2 d := by
  match ws with
  | [] => exact ⟨rfl, rfl, rfl⟩
  | [a] => exact ⟨rfl, rfl, rfl⟩
  | [a, b] => exact ⟨rfl, rfl, rfl⟩
  | a :: b :: e :: t => exact ⟨rfl, rfl, rfl⟩

theorem morph_name_expand (m : Analyzer) (cache : Cache) (s c : Str) (uc : Bool)
    (ws : List Str) (hc : supportedCases.contains c = true) (hs : pyStrip s ≠ [])
    (h : pySplitWs (pyStrip s) = ws) :
    morph_name m cache s c uc =
      (let fem := determineGender m (ws.getD 1 []) (ws.getD 2 []);
       let t0 := inflectNamePart m cache (ws.getD 0 []) c fem;
       let t1 := inflectNamePart m t0.2.1 (ws.getD 1 []) c fem;
       let t2 := inflectNamePart m t1.2.1 (ws.getD 2 []) c fem;
       .ok (joinSep (lit " ")
             (([(if uc then pyUpper t0.1 else t0.1), t1.1, t2.1]).filter
               (fun x => !x.isEmpty)),
           t2.2.1)) := by
  unfold morph_name
  rw [if_neg (by intro hcon; rw [hcon] at hc; exact Bool.noConfusion hc), if_neg hs, h]

/-- C8.  Name assembly: the full name is whitespace-split into at most three
positional parts, any tokens beyond the third being ignored (the result is
the same as for the input truncated to its first three tokens); and for a
valid case and non-blank input the result is the three inflected parts
joined by single spaces, omitting every empty part, with the surname forced
to full uppercase when the uppercase-surname option is set. -/
theorem C8_name_assembly (m : Analyzer) (cache : Cache) (s s2 c : Str) (uc : Bool)
    (ws : List Str) (hc : supportedCases.contains c = true)
    (h : pySplitWs (pyStrip s) = ws) (h2 : pySplitWs (pyStrip s2) = ws.take 3)
    (hs : pyStrip s ≠ []) (hs2 : pyStrip s2 ≠ []) :
    morph_name m cache s c uc = morph_name m cache s2 c uc ∧
    morph_name m cache s c true =
      (let fem := determineGender m (ws.getD 1 []) (ws.getD 2 []);
       let t0 := inflectNamePart m cache (ws.getD 0 []) c fem;
       let t1 := inflectNamePart m t0.2.1 (ws.getD 1 []) c fem;
       let t2 := inflectNamePart m t1.2.1 (ws.getD 2 []) c fem;
       .ok (joinSep (lit " ")
             (([pyUpper t0.1, t1.1, t2.1]).filter (fun x => !x.isEmpty)),
           t2.2.1)) := by
  constructor
  · rw [morph_name_expand m cache s c uc ws hc hs h,
      morph_name_expand m cache s2 c uc (ws.take 3) hc hs2 h2,
      (getD_take3 ws ([] : Str)).1, (getD_take3 ws ([] : Str)).2.1,
      (getD_take3 ws ([] : Str)).2.2]
  · exact morph_name_expand m cache s c true ws hc hs h

/-- C8, witness: a fourth token is ignored, and the assembled genitive of a
three-part name has the uppercase surname with parts joined by single
spaces. -/
theorem C8_witness :
    morph_name AEmpty [] (lit "Шевченко Тарас Григорович Зайве") (lit "gent") true =
      morph_name AEmpty [] (lit "Шевченко Тарас Григорович") (lit "gent") true := by
  exact (C8_name_assembly AEmpty [] (lit "Шевченко Тарас Григорович Зайве")
    (lit "Шевченко Тарас Григорович") (lit "gent") true
    [lit "Шевченко", lit "Тарас", lit "Григорович", lit "Зайве"]
    (by decide) (by decide) (by decide) (by decide) (by decide)).1

/-- C10.  The feminine fixed-form exception is tested for an arbitrary name
part (hence also for the first name and the patronymic, which receive the
same gender flag in `morph_name`): with the feminine gender flag, a part
whose top parse carries the `Sgtm` tag and which does not end in `а`/`я` is
left uninflected for every non-nominative case, with its capitalization
normalized to initial-capital, and that result is what gets cached. -/
theorem C10_feminine_fixed_form (m : Analyzer) (cache : Cache) (part c : Str)
    (p : Parse) (ps : List Parse) (hp : part ≠ [])
    (hmiss : List.lookup (cacheKey part c true) cache = none)
    (hparse : m.parse part = p :: ps)
    (htag : p.tag.contains (lit "Sgtm") = true)
    (hend : (endsWith (lit "а") part || endsWith (lit "я") part) = false)
    (hc : c ≠ lit "nomn") :
    (inflectNamePart m cache part c true).1 =
      (if isUpperFirst part then pyCapitalize part else part) ∧
    (inflectNamePart m cache part c true).2.1 =
      (cacheKey part c true,
        (if isUpperFirst part then pyCapitalize part else part)) :: cache := by
  have hres : inflectNamePart m cache part c true =
      ((if isUpperFirst part then pyCapitalize part else part),
       (cacheKey part c true,
         (if isUpperFirst part then pyCapitalize part else part)) :: cache, 1) := by
    simp only [inflectNamePart, if_neg hp, hmiss, hparse]
    simp [htag, hend, hc, List.mem_of_elem_eq_true htag]
  rw [hres]
  exact ⟨rfl, rfl⟩

/-- C10, witness: the feminine surname-like part `Коваль` (fixed-form tag,
no `а`/`я` ending) is left uninflected in the genitive. -/
theorem C10_witness :
    (inflectNamePart ASg [] (lit "Коваль") (lit "gent") true).1 = lit "Коваль" := by
  have h := (C10_feminine_fixed_form ASg [] (lit "Коваль") (lit "gent") PSg []
    (by decide) rfl rfl (by decide) (by decide) (by decide)).1
  rw [h]
  decide

-- ---------------------------------------------------------------------------
-- Helper lemmas: shape of the word inflector output
-- ---------------------------------------------------------------------------

theorem morph_word_shape (m : Analyzer) (hm : lowerOut m) (w c : Str) :
    morph_word m w c = w ∨
      ∃ base, isLcWord base = true ∧
        morph_word m w c = (if isUpperFirst w then pyCapitalize base else base) := by
  by_cases h0 : w = [] ∨ c = []
  · left
    simp [morph_word, morphWordC, h0]
  · cases hw : m.parse w with
    | nil =>
      left
      simp [morph_word, morphWordC, h0, hw]
    | cons p ps =>
      have hp : p ∈ m.parse w := by rw [hw]; exact List.mem_cons_self _ _
      have hinf := (hm w p hp).1
      have hlex := (hm w p hp).2
      cases hi : p.inflect c with
      | none =>
        left
        simp [morph_word, morphWordC, h0, hw, hi]
      | some iw =>
        have hiw : isLcWord iw = true := hinf c iw hi
        right
        by_cases hd : c = lit "datv"
        · subst hd
          have hout : morph_word m w (lit "datv") =
              (if isUpperFirst w then pyCapitalize (refineDativeC m w iw).1
               else (refineDativeC m w iw).1) := by
            simp only [morph_word, morphWordC, if_neg h0, hw, hi]
            simp
          by_cases hlsuf : (endsWith (lit "ові") iw || endsWith (lit "еві") iw ||
              endsWith (lit "єві") iw) = false
          · have hrc : (refineDativeC m w iw).1 = iw := by
              unfold refineDativeC
              rw [if_pos hlsuf]
            exact ⟨iw, hiw, by rw [hout, hrc]⟩
          · cases hfind : p.lexeme.find? isShortDatv with
            | none =>
              have hrc : (refineDativeC m w iw).1 = iw := by
                unfold refineDativeC
                rw [if_neg hlsuf, hw]
                simp [hfind]
              exact ⟨iw, hiw, by rw [hout, hrc]⟩
            | some f =>
              have hfw : isLcWord f.word = true :=
                hlex f (List.mem_of_find?_eq_some hfind)
              have hrc : (refineDativeC m w iw).1 =
                  (if isUpperFirst w then pyCapitalize f.word else f.word) := by
                unfold refineDativeC
                rw [if_neg hlsuf, hw]
                simp [hfind]
              refine ⟨f.word, hfw, ?_⟩
              rw [hout, hrc]
              by_cases hu : isUpperFirst w = true
              · rw [if_pos hu, if_pos hu]
                exact pyCapitalize_idem hfw
              · rw [if_neg hu, if_neg hu]
        · have hout : morph_word m w c =
              (if isUpperFirst w then pyCapitalize iw else iw) := by
            simp only [morph_word, morphWordC, if_neg h0, hw, hi, if_neg hd]
          exact ⟨iw, hiw, hout⟩

/-- C9.  Capitalization preservation by the word inflector, under the
analyzer contract that its dictionary forms are non-empty lower-case words:
an input with an upper-case first character yields an output with an
upper-case first character; a lower-case first character yields a
lower-case one; and beyond the first character the inflector does not
alter casing (the output is the original word, or its tail is the
the tail of the lower-case analyzer form). -/
theorem C9_capitalization (m : Analyzer) (hm : lowerOut m) (w c : Str) :
    (isUpperChar (headChar w) = true → isUpperChar (headChar (morph_word m w c)) = true) ∧
    (isLowerChar (headChar w) = true → isLowerChar (headChar (morph_word m w c)) = true) ∧
    (morph_word m w c = w ∨
      (morph_word m w c).tail.all (fun x => toLowerChar x == x) = true) := by
  rcases morph_word_shape m hm w c with hsh | ⟨base, hbase, hsh⟩
  · rw [hsh]
    exact ⟨fun h => h, fun h => h, Or.inl rfl⟩
  · refine ⟨?_, ?_, ?_⟩
    · intro hup
      have hu : isUpperFirst w = true := by
        cases w with
        | nil => exact absurd hup (by decide)
        | cons c0 cs => exact hup
      rw [hsh, if_pos hu]
      exact pyCapitalize_head_upper hbase
    · intro hlow
      have hnu : isUpperFirst w = false := by
        cases w with
        | nil => rfl
        | cons c0 cs => exact notUpper_of_lower hlow
      rw [hsh, if_neg (by simp [hnu])]
      exact (isLcWord_parts hbase).2.1
    · right
      rw [hsh]
      by_cases hu : isUpperFirst w = true
      · rw [if_pos hu]
        exact pyCapitalize_tail_lower base
      · rw [if_neg hu]
        exact lcWord_tail_lower hbase

/-- Lower-case output contract holds for the lower-case-only analyzer. -/
theorem ALc_lowerOut : lowerOut ALc := by
  intro w p hp
  simp only [ALc, List.mem_singleton] at hp
  subst hp
  constructor
  · intro c iw h
    simp only [PLc, Option.some.injEq] at h
    subst h
    decide
  · intro f hf
    simp [PLc] at hf

/-- C9, witness: upper- and lower-case first characters are preserved at
concrete words under a concrete lower-case analyzer. -/
theorem C9_witness :
    lowerOut ALc ∧
    isUpperChar (headChar (morph_word ALc (lit "Слово") (lit "gent"))) = true ∧
    isLowerChar (headChar (morph_word ALc (lit "слово") (lit "gent"))) = true := by
  refine ⟨ALc_lowerOut, ?_, ?_⟩
  · exact (C9_capitalization ALc ALc_lowerOut (lit "Слово") (lit "gent")).1 (by decide)
  · exact (C9_capitalization ALc ALc_lowerOut (lit "слово") (lit "gent")).2.1 (by decide)
